import Mathlib

/-!
Verification of an undirected-graph data structure with BFS shortest
distances. The Python class Graph (file graph.py) is embedded shallowly:
the adjacency defaultdict becomes an association list in key insertion
order, Python sets become duplicate-free lists compared by membership,
raised ValueError / IndexError become an Except error type, and the
destructive iterator protocol becomes an explicit state-passing step
function.
-/

namespace UG

/-- Association list from node id to its neighbor set: the Python dict
from int to set of int, entries in key insertion order. -/
abbrev Adj := List (Int × List Int)

/-- Look up the value stored under a key (first matching entry). -/
def alookup : Adj → Int → Option (List Int)
  | [], _ => none
  | (k0, v) :: rest, k => if k0 = k then some v else alookup rest k

/-- Python: key in dict. -/
def hasKey (d : Adj) (k : Int) : Bool := (alookup d k).isSome

/-- The neighbor set of a node, empty when the node is absent. -/
def neighborsOf (d : Adj) (k : Int) : List Int := (alookup d k).getD []

/-- Python set.add on a set represented as a duplicate-free list. -/
def setAdd (s : List Int) (v : Int) : List Int := if v ∈ s then s else s ++ [v]

/-- Python d[k].add(v) on a defaultdict(set): updates the entry in
place, creating it at the end when the key is absent (dicts preserve
insertion order). -/
def dictAddToSet : Adj → Int → Int → Adj
  | [], k, v => [(k, setAdd [] v)]
  | (k0, s) :: rest, k, v =>
    if k0 = k then (k0, setAdd s v) :: rest else (k0, s) :: dictAddToSet rest k v

/-- All node ids appearing in some neighbor set of the dict. -/
def valuesD (d : Adj) : List Int := d.flatMap (fun p => p.2)

/-- The Graph class state: adjacency_dict and all_nodes. -/
structure Graph where
  adjacency_dict : Adj
  all_nodes : List Int
  deriving DecidableEq

/-- Graph.update_all_nodes: all_nodes := list of keys of adjacency_dict. -/
def Graph.update_all_nodes (g : Graph) : Graph :=
  { g with all_nodes := g.adjacency_dict.map Prod.fst }

/-- Graph.contains (the dunder membership test): key of adjacency_dict. -/
def Graph.contains (g : Graph) (n : Int) : Bool := hasKey g.adjacency_dict n

/-- Graph.is_edge_in_graph: first endpoint is a key and the second is in
its neighbor set (short-circuit conjunction, so no defaultdict insertion). -/
def Graph.is_edge_in_graph (g : Graph) (e : Int × Int) : Bool :=
  match alookup g.adjacency_dict e.1 with
  | none => false
  | some s => decide (e.2 ∈ s)

/-- Graph.add_edge: no-op when the edge is present, otherwise insert
each endpoint into the other's neighbor set and refresh all_nodes. -/
def Graph.add_edge (g : Graph) (e : Int × Int) : Graph :=
  if g.is_edge_in_graph e then g
  else
    Graph.update_all_nodes
      { g with
        adjacency_dict := dictAddToSet (dictAddToSet g.adjacency_dict e.1 e.2) e.2 e.1 }

/-- Graph.add_node: no-op when present, otherwise bind the node to an
empty set and refresh all_nodes. -/
def Graph.add_node (g : Graph) (n : Int) : Graph :=
  if g.contains n then g
  else Graph.update_all_nodes { g with adjacency_dict := g.adjacency_dict ++ [(n, [])] }

/-- The Graph constructor: start empty, return at once on an empty edge
list, otherwise add every edge in order and refresh all_nodes. -/
def construct (edges : List (Int × Int)) : Graph :=
  if edges.isEmpty then { adjacency_dict := [], all_nodes := [] }
  else
    Graph.update_all_nodes
      (edges.foldl (fun g e => g.add_edge e) { adjacency_dict := [], all_nodes := [] })

/-- The error kinds the class raises: ValueError for a missing node, and
the IndexError that indexing an empty filtered list would raise. -/
inductive GErr where
  | nodeNotFound : GErr
  | indexError : GErr
  deriving DecidableEq

/-- Graph.getitem, i.e. Neighbors: a copy of the neighbor set, or the
node-not-found error. -/
def Graph.neighbors (g : Graph) (n : Int) : Except GErr (List Int) :=
  if g.contains n = false then .error .nodeNotFound
  else .ok (neighborsOf g.adjacency_dict n)

/-- Python set equality: same members. -/
def setEq (s t : List Int) : Bool :=
  s.all (fun x => decide (x ∈ t)) && t.all (fun x => decide (x ∈ s))

/-- Python dict equality: same key set, set-equal values. -/
def dictEq (d e : Adj) : Bool :=
  (d.all fun p =>
    match alookup e p.1 with
    | none => false
    | some s => setEq p.2 s) &&
  (e.all fun p =>
    match alookup d p.1 with
    | none => false
    | some s => setEq p.2 s)

/-- Graph.eq: equality of the adjacency dicts only. -/
def Graph.beq (g1 g2 : Graph) : Bool := dictEq g1.adjacency_dict g2.adjacency_dict

/-- Graph.next of the iterator protocol (iter returns the graph itself):
pops the head of all_nodes, mutating the graph; none is StopIteration. -/
def Graph.next (g : Graph) : Option (Int × Graph) :=
  match g.all_nodes with
  | [] => none
  | n :: rest => some (n, { g with all_nodes := rest })

/-- Inner loop of one BFS round: scan the neighbor list of a dequeued
node; each unseen neighbor is marked seen, recorded with the current
distance, and enqueued. State is (seen, distance_pairs, new queue). -/
def visitNbrs : List Int → List Int → List (Int × Int) → List Int → Int →
    List Int × List (Int × Int) × List Int
  | [], seen, pairs, next, _ => (seen, pairs, next)
  | nb :: rest, seen, pairs, next, dist =>
    if nb ∈ seen then visitNbrs rest seen pairs next dist
    else visitNbrs rest (seen ++ [nb]) (pairs ++ [(nb, dist)]) (next ++ [nb]) dist

/-- defaultdict(set) read d[k]: the stored set, or insert an empty set
under k when absent and return it. -/
def ddLookup (d : Adj) (k : Int) : List Int × Adj :=
  match alookup d k with
  | some s => (s, d)
  | none => ([], d ++ [(k, [])])

/-- One round of the BFS while-loop: process every node of the current
queue snapshot; newly discovered nodes accumulate in the next queue. -/
def bfsLevel : List Int → Adj → List Int → List (Int × Int) → List Int → Int →
    Adj × List Int × List (Int × Int) × List Int
  | [], d, seen, pairs, next, _ => (d, seen, pairs, next)
  | cur :: rest, d, seen, pairs, next, dist =>
    bfsLevel rest (ddLookup d cur).2
      (visitNbrs (ddLookup d cur).1 seen pairs next dist).1
      (visitNbrs (ddLookup d cur).1 seen pairs next dist).2.1
      (visitNbrs (ddLookup d cur).1 seen pairs next dist).2.2
      dist

theorem visitNbrs_struct (nbs : List Int) : ∀ seen pairs next dist,
    ∃ Δ, (visitNbrs nbs seen pairs next dist).1 = seen ++ Δ ∧
      (visitNbrs nbs seen pairs next dist).2.2 = next ++ Δ ∧
      ∀ x ∈ Δ, x ∈ nbs := by
  induction nbs with
  | nil =>
    intro seen pairs next dist
    exact ⟨[], by simp [visitNbrs]⟩
  | cons nb rest ih =>
    intro seen pairs next dist
    by_cases h : nb ∈ seen
    · obtain ⟨Δ, h1, h2, h3⟩ := ih seen pairs next dist
      refine ⟨Δ, ?_, ?_, ?_⟩ <;> simp [visitNbrs, h, h1, h2]
      intro x hx
      exact Or.inr (h3 x hx)
    · obtain ⟨Δ, h1, h2, h3⟩ := ih (seen ++ [nb]) (pairs ++ [(nb, dist)]) (next ++ [nb]) dist
      refine ⟨nb :: Δ, ?_, ?_, ?_⟩
      · simp [visitNbrs, h, h1]
      · simp [visitNbrs, h, h2]
      · intro x hx
        rcases List.mem_cons.1 hx with h4 | h4
        · simp [h4]
        · exact List.mem_cons_of_mem _ (h3 x h4)

theorem visitNbrs_nodup (nbs : List Int) : ∀ seen pairs next dist, seen.Nodup →
    (visitNbrs nbs seen pairs next dist).1.Nodup := by
  induction nbs with
  | nil => intro seen pairs next dist hs; simpa [visitNbrs] using hs
  | cons nb rest ih =>
    intro seen pairs next dist hs
    by_cases h : nb ∈ seen
    · simpa [visitNbrs, h] using ih seen pairs next dist hs
    · have hs2 : (seen ++ [nb]).Nodup := by
        simp [List.nodup_append, hs, h]
      simpa [visitNbrs, h] using
        ih (seen ++ [nb]) (pairs ++ [(nb, dist)]) (next ++ [nb]) dist hs2

theorem valuesD_cons (p : Int × List Int) (rest : Adj) :
    valuesD (p :: rest) = p.2 ++ valuesD rest := by
  simp [valuesD]

theorem alookup_values (d : Adj) (k : Int) (s : List Int)
    (h : alookup d k = some s) : ∀ x ∈ s, x ∈ valuesD d := by
  induction d with
  | nil => simp [alookup] at h
  | cons p rest ih =>
    intro x hx
    rw [valuesD_cons, List.mem_append]
    by_cases hk : p.1 = k
    · left
      have hps : p.2 = s := by simpa [alookup, hk] using h
      exact hps ▸ hx
    · right
      have h2 : alookup rest k = some s := by
        cases p with
        | mk a b => simpa [alookup, hk] using h
      exact ih h2 x hx

theorem valuesD_ddLookup (d : Adj) (k : Int) :
    valuesD (ddLookup d k).2 = valuesD d := by
  unfold ddLookup
  cases h : alookup d k with
  | some s => simp
  | none => simp [valuesD]

theorem ddLookup_fst_values (d : Adj) (k : Int) :
    ∀ x ∈ (ddLookup d k).1, x ∈ valuesD d := by
  unfold ddLookup
  cases h : alookup d k with
  | some s => simpa using alookup_values d k s h
  | none => simp

theorem bfsLevel_struct (Q : List Int) : ∀ d seen pairs next dist,
    ∃ Δ, (bfsLevel Q d seen pairs next dist).2.1 = seen ++ Δ ∧
      (bfsLevel Q d seen pairs next dist).2.2.2 = next ++ Δ ∧
      (∀ x ∈ Δ, x ∈ valuesD d) ∧
      valuesD (bfsLevel Q d seen pairs next dist).1 = valuesD d := by
  induction Q with
  | nil =>
    intro d seen pairs next dist
    exact ⟨[], by simp [bfsLevel]⟩
  | cons cur rest ih =>
    intro d seen pairs next dist
    obtain ⟨Δ1, v1, v2, v3⟩ := visitNbrs_struct (ddLookup d cur).1 seen pairs next dist
    obtain ⟨Δ2, h1, h2, h3, h4⟩ := ih (ddLookup d cur).2
      (visitNbrs (ddLookup d cur).1 seen pairs next dist).1
      (visitNbrs (ddLookup d cur).1 seen pairs next dist).2.1
      (visitNbrs (ddLookup d cur).1 seen pairs next dist).2.2
      dist
    refine ⟨Δ1 ++ Δ2, ?_, ?_, ?_, ?_⟩
    · simp only [bfsLevel]
      rw [h1, v1, List.append_assoc]
    · simp only [bfsLevel]
      rw [h2, v2, List.append_assoc]
    · intro x hx
      rcases List.mem_append.1 hx with h5 | h5
      · exact ddLookup_fst_values d cur x (v3 x h5)
      · have := h3 x h5
        rwa [valuesD_ddLookup] at this
    · show valuesD (bfsLevel rest _ _ _ _ _).1 = valuesD d
      rw [h4, valuesD_ddLookup]

theorem bfsLevel_nodup (Q : List Int) : ∀ d seen pairs next dist, seen.Nodup →
    (bfsLevel Q d seen pairs next dist).2.1.Nodup := by
  induction Q with
  | nil => intro d seen pairs next dist hs; simpa [bfsLevel] using hs
  | cons cur rest ih =>
    intro d seen pairs next dist hs
    exact ih _ _ _ _ _ (visitNbrs_nodup _ _ _ _ _ hs)

/-- Termination measure for the BFS while-loop. -/
def bfsMeasure (d : Adj) (seen : List Int) (queue : List Int) : Nat :=
  2 * ((seen ++ valuesD d).dedup.length - seen.length) +
    (if queue = [] then 0 else 1)

theorem measure_decreases (d : Adj) (seen : List Int) (pairs : List (Int × Int))
    (queue : List Int) (dist : Int) (hs : seen.Nodup) (hq : queue ≠ []) :
    bfsMeasure (bfsLevel queue d seen pairs [] dist).1
      (bfsLevel queue d seen pairs [] dist).2.1
      (bfsLevel queue d seen pairs [] dist).2.2.2 <
    bfsMeasure d seen queue := by
  obtain ⟨Δ, h1, h2, h3, h4⟩ := bfsLevel_struct queue d seen pairs [] dist
  simp only [List.nil_append] at h2
  have hnodup : (seen ++ Δ).Nodup := h1 ▸ bfsLevel_nodup queue d seen pairs [] dist hs
  have hsetEq : ((seen ++ Δ) ++ valuesD d).toFinset = (seen ++ valuesD d).toFinset := by
    ext x
    simp only [List.toFinset_append, Finset.mem_union, List.mem_toFinset]
    constructor
    · rintro ((hx | hx) | hx)
      · exact Or.inl hx
      · exact Or.inr (h3 x hx)
      · exact Or.inr hx
    · rintro (hx | hx)
      · exact Or.inl (Or.inl hx)
      · exact Or.inr hx
  have hUeq : ((seen ++ Δ) ++ valuesD d).dedup.length = (seen ++ valuesD d).dedup.length := by
    rw [← List.card_toFinset, ← List.card_toFinset, hsetEq]
  have hbound : (seen ++ Δ).length ≤ ((seen ++ Δ) ++ valuesD d).dedup.length := by
    rw [← List.card_toFinset]
    calc (seen ++ Δ).length = (seen ++ Δ).toFinset.card :=
          (List.toFinset_card_of_nodup hnodup).symm
      _ ≤ ((seen ++ Δ) ++ valuesD d).toFinset.card := by
          apply Finset.card_le_card
          intro x hx
          simp only [List.toFinset_append, Finset.mem_union] at hx ⊢
          exact Or.inl hx
  unfold bfsMeasure
  rw [h1, h2, h4, hUeq, if_neg hq]
  rcases Δ with _ | ⟨x, Δt⟩
  · have e1 : (if ([] : List Int) = [] then (0 : Nat) else 1) = 0 := if_pos rfl
    rw [e1, List.append_nil]
    omega
  · have e1 : (if (x :: Δt : List Int) = [] then (0 : Nat) else 1) = 1 := by simp
    rw [e1]
    have hlen : seen.length + (Δt.length + 1) ≤ (seen ++ valuesD d).dedup.length := by
      have hb := hbound
      rw [hUeq] at hb
      simpa [List.length_append] using hb
    rw [List.length_append, List.length_cons]
    omega

/-- The BFS while-loop: one bfsLevel round per iteration while the queue
is nonempty; the distance counter increments at the start of each round.
The Nodup argument on seen drives termination. -/
def bfsLoop (d : Adj) (seen : List Int) (pairs : List (Int × Int)) (queue : List Int)
    (dist : Int) (hs : seen.Nodup) : Adj × List Int × List (Int × Int) :=
  if hq : queue = [] then (d, seen, pairs)
  else
    bfsLoop (bfsLevel queue d seen pairs [] (dist + 1)).1
      (bfsLevel queue d seen pairs [] (dist + 1)).2.1
      (bfsLevel queue d seen pairs [] (dist + 1)).2.2.1
      (bfsLevel queue d seen pairs [] (dist + 1)).2.2.2
      (dist + 1)
      (bfsLevel_nodup queue d seen pairs [] (dist + 1) hs)
termination_by bfsMeasure d seen queue
decreasing_by
  exact measure_decreases d seen pairs queue (dist + 1) hs hq

/-- Graph.bfs: error when the start node is absent; otherwise run the
level-by-level loop from the start node and append (node, -1) for every
node of all_nodes never seen. The possibly updated adjacency dict (the
defaultdict can insert keys during neighbor lookups) is returned as the
post-state graph. -/
def Graph.bfs (g : Graph) (start : Int) : Except GErr (List (Int × Int) × Graph) :=
  if g.contains start = false then .error .nodeNotFound
  else
    let r := bfsLoop g.adjacency_dict [start] [] [start] 0 (List.nodup_singleton start)
    .ok
      (r.2.2 ++
        (g.all_nodes.filter (fun n => decide (¬ n ∈ r.2.1))).map (fun n => (n, (-1 : Int))),
        Graph.mk r.1 g.all_nodes)

/-- Graph.distance: error when either node is absent; 0 when the nodes
are equal (BFS not run); otherwise the head of the BFS pairs filtered to
the second node (IndexError when that filter is empty). -/
def Graph.distance (g : Graph) (a b : Int) : Except GErr (Int × Graph) :=
  if g.contains a = false ∨ g.contains b = false then .error .nodeNotFound
  else if a = b then .ok (0, g)
  else
    match g.bfs a with
    | .error e => .error e
    | .ok (pr, g2) =>
      match pr.filter (fun p => decide (p.1 = b)) with
      | [] => .error .indexError
      | p :: _ => .ok (p.2, g2)

/-- A path of k edges from a to b: paths grow one neighbor step at a
time at the target end. -/
inductive IsPath (d : Adj) (a : Int) : Int → Nat → Prop
  | nil : IsPath d a a 0
  | snoc {b c : Int} {k : Nat} : IsPath d a b k → c ∈ neighborsOf d b → IsPath d a c (k + 1)

/-- b is reachable from a by some path. -/
def Reachable (d : Adj) (a b : Int) : Prop := ∃ k, IsPath d a b k

/-- Nodes within k steps of start: the level sets of the BFS recurrence. -/
def reachList (d : Adj) (start : Int) : Nat → List Int
  | 0 => [start]
  | k + 1 => reachList d start k ++ (reachList d start k).flatMap (neighborsOf d)

/-- k is the first BFS level at which n appears. -/
def firstAt (d : Adj) (start n : Int) (k : Nat) : Prop :=
  n ∈ reachList d start k ∧ ∀ j < k, ¬ n ∈ reachList d start j

theorem ddLookup_fst_of_hasKey (d : Adj) (k : Int) (h : hasKey d k = true) :
    (ddLookup d k).1 = neighborsOf d k := by
  unfold hasKey at h
  cases ha : alookup d k with
  | some s => simp [ddLookup, neighborsOf, ha]
  | none => rw [ha] at h; simp at h

theorem ddLookup_snd_of_hasKey (d : Adj) (k : Int) (h : hasKey d k = true) :
    (ddLookup d k).2 = d := by
  unfold hasKey at h
  cases ha : alookup d k with
  | some s => simp [ddLookup, ha]
  | none => rw [ha] at h; simp at h

theorem visitNbrs_seen_mem (nbs : List Int) : ∀ seen pairs next dist n,
    (n ∈ (visitNbrs nbs seen pairs next dist).1 ↔ n ∈ seen ∨ n ∈ nbs) := by
  induction nbs with
  | nil => intro seen pairs next dist n; simp [visitNbrs]
  | cons nb rest ih =>
    intro seen pairs next dist n
    by_cases h : nb ∈ seen
    · simp only [visitNbrs, if_pos h]
      rw [ih]
      by_cases hnb : n = nb
      · subst hnb; simp [h]
      · simp [List.mem_cons, hnb]
    · simp only [visitNbrs, if_neg h]
      rw [ih]
      by_cases hnb : n = nb
      · subst hnb; simp [List.mem_append]
      · simp [List.mem_cons, List.mem_append, hnb]

theorem visitNbrs_next_mem (nbs : List Int) : ∀ seen pairs next dist n,
    (n ∈ (visitNbrs nbs seen pairs next dist).2.2 ↔
      n ∈ next ∨ (¬ n ∈ seen ∧ n ∈ nbs)) := by
  induction nbs with
  | nil => intro seen pairs next dist n; simp [visitNbrs]
  | cons nb rest ih =>
    intro seen pairs next dist n
    by_cases h : nb ∈ seen
    · simp only [visitNbrs, if_pos h]
      rw [ih]
      by_cases hnb : n = nb
      · subst hnb; simp [h]
      · simp [List.mem_cons, hnb]
    · simp only [visitNbrs, if_neg h]
      rw [ih]
      by_cases hnb : n = nb
      · subst hnb; simp [h, List.mem_append]
      · simp [List.mem_cons, List.mem_append, hnb]

theorem visitNbrs_pairs_mem (nbs : List Int) : ∀ seen pairs next dist q v,
    ((q, v) ∈ (visitNbrs nbs seen pairs next dist).2.1 ↔
      (q, v) ∈ pairs ∨ (¬ q ∈ seen ∧ v = dist ∧ q ∈ nbs)) := by
  induction nbs with
  | nil => intro seen pairs next dist q v; simp [visitNbrs]
  | cons nb rest ih =>
    intro seen pairs next dist q v
    by_cases h : nb ∈ seen
    · simp only [visitNbrs, if_pos h]
      rw [ih]
      by_cases hq : q = nb
      · subst hq; simp [h]
      · simp [List.mem_cons, hq]
    · simp only [visitNbrs, if_neg h]
      rw [ih]
      by_cases hq : q = nb
      · subst hq
        simp [h, List.mem_append, Prod.ext_iff]
      · simp [List.mem_cons, List.mem_append, hq, Prod.ext_iff]

theorem visitNbrs_pairs_inv (nbs : List Int) : ∀ seen pairs next dist,
    (pairs.map Prod.fst).Nodup → (∀ p ∈ pairs, p.1 ∈ seen) →
    ((visitNbrs nbs seen pairs next dist).2.1.map Prod.fst).Nodup ∧
      ∀ p ∈ (visitNbrs nbs seen pairs next dist).2.1,
        p.1 ∈ (visitNbrs nbs seen pairs next dist).1 := by
  induction nbs with
  | nil =>
    intro seen pairs next dist h1 h2
    exact ⟨by simpa [visitNbrs] using h1, by simpa [visitNbrs] using h2⟩
  | cons nb rest ih =>
    intro seen pairs next dist h1 h2
    by_cases h : nb ∈ seen
    · simp only [visitNbrs, if_pos h]
      exact ih seen pairs next dist h1 h2
    · simp only [visitNbrs, if_neg h]
      apply ih
      · rw [List.map_append]
        rw [List.nodup_append]
        refine ⟨h1, by simp, ?_⟩
        intro x hx hx2
        simp at hx2
        subst hx2
        rcases List.mem_map.1 hx with ⟨p, hp, hp2⟩
        exact h (hp2 ▸ h2 p hp)
      · intro p hp
        rcases List.mem_append.1 hp with hp | hp
        · exact List.mem_append_left _ (h2 p hp)
        · have : p = (nb, dist) := by simpa using hp
          rw [this]
          simp

theorem bfsLevel_frame (Q : List Int) : ∀ d seen pairs next dist,
    (∀ m ∈ Q, hasKey d m = true) →
    (bfsLevel Q d seen pairs next dist).1 = d := by
  induction Q with
  | nil => intro d seen pairs next dist _; simp [bfsLevel]
  | cons cur rest ih =>
    intro d seen pairs next dist hk
    have hcur : hasKey d cur = true := hk cur (by simp)
    simp only [bfsLevel, ddLookup_fst_of_hasKey d cur hcur,
      ddLookup_snd_of_hasKey d cur hcur]
    exact ih d _ _ _ dist (fun m hm => hk m (by simp [hm]))

theorem bfsLevel_seen_mem (Q : List Int) : ∀ d seen pairs next dist n,
    (∀ m ∈ Q, hasKey d m = true) →
    (n ∈ (bfsLevel Q d seen pairs next dist).2.1 ↔
      n ∈ seen ∨ ∃ m ∈ Q, n ∈ neighborsOf d m) := by
  induction Q with
  | nil => intro d seen pairs next dist n _; simp [bfsLevel]
  | cons cur rest ih =>
    intro d seen pairs next dist n hk
    have hcur : hasKey d cur = true := hk cur (by simp)
    simp only [bfsLevel, ddLookup_fst_of_hasKey d cur hcur,
      ddLookup_snd_of_hasKey d cur hcur]
    rw [ih d _ _ _ dist n (fun m hm => hk m (by simp [hm]))]
    rw [visitNbrs_seen_mem]
    simp only [List.exists_mem_cons_iff]
    tauto

theorem bfsLevel_next_mem (Q : List Int) : ∀ d seen pairs next dist n,
    (∀ m ∈ Q, hasKey d m = true) →
    (n ∈ (bfsLevel Q d seen pairs next dist).2.2.2 ↔
      n ∈ next ∨ (¬ n ∈ seen ∧ ∃ m ∈ Q, n ∈ neighborsOf d m)) := by
  induction Q with
  | nil => intro d seen pairs next dist n _; simp [bfsLevel]
  | cons cur rest ih =>
    intro d seen pairs next dist n hk
    have hcur : hasKey d cur = true := hk cur (by simp)
    simp only [bfsLevel, ddLookup_fst_of_hasKey d cur hcur,
      ddLookup_snd_of_hasKey d cur hcur]
    rw [ih d _ _ _ dist n (fun m hm => hk m (by simp [hm]))]
    rw [visitNbrs_next_mem, visitNbrs_seen_mem]
    simp only [List.exists_mem_cons_iff]
    tauto

theorem bfsLevel_pairs_mem (Q : List Int) : ∀ d seen pairs next dist q v,
    (∀ m ∈ Q, hasKey d m = true) →
    ((q, v) ∈ (bfsLevel Q d seen pairs next dist).2.2.1 ↔
      (q, v) ∈ pairs ∨ (¬ q ∈ seen ∧ v = dist ∧ ∃ m ∈ Q, q ∈ neighborsOf d m)) := by
  induction Q with
  | nil => intro d seen pairs next dist q v _; simp [bfsLevel]
  | cons cur rest ih =>
    intro d seen pairs next dist q v hk
    have hcur : hasKey d cur = true := hk cur (by simp)
    simp only [bfsLevel, ddLookup_fst_of_hasKey d cur hcur,
      ddLookup_snd_of_hasKey d cur hcur]
    rw [ih d _ _ _ dist q v (fun m hm => hk m (by simp [hm]))]
    rw [visitNbrs_pairs_mem, visitNbrs_seen_mem]
    simp only [List.exists_mem_cons_iff]
    tauto

theorem bfsLevel_pairs_inv (Q : List Int) : ∀ d seen pairs next dist,
    (pairs.map Prod.fst).Nodup → (∀ p ∈ pairs, p.1 ∈ seen) →
    ((bfsLevel Q d seen pairs next dist).2.2.1.map Prod.fst).Nodup ∧
      ∀ p ∈ (bfsLevel Q d seen pairs next dist).2.2.1,
        p.1 ∈ (bfsLevel Q d seen pairs next dist).2.1 := by
  induction Q with
  | nil =>
    intro d seen pairs next dist h1 h2
    exact ⟨by simpa [bfsLevel] using h1, by simpa [bfsLevel] using h2⟩
  | cons cur rest ih =>
    intro d seen pairs next dist h1 h2
    simp only [bfsLevel]
    obtain ⟨g1, g2⟩ := visitNbrs_pairs_inv (ddLookup d cur).1 seen pairs next dist h1 h2
    exact ih _ _ _ _ dist g1 g2

/-- The adjacency structure is symmetric: undirected edges are mirrored. -/
def Symm (d : Adj) : Prop := ∀ a b : Int, b ∈ neighborsOf d a → a ∈ neighborsOf d b

/-- The data-model invariants of the spec: keys unique, all_nodes lists
exactly the keys in order, adjacency symmetric. -/
def GraphInv (g : Graph) : Prop :=
  (g.adjacency_dict.map Prod.fst).Nodup ∧
  g.all_nodes = g.adjacency_dict.map Prod.fst ∧
  Symm g.adjacency_dict

theorem reach_zero (d : Adj) (s n : Int) : n ∈ reachList d s 0 ↔ n = s := by
  simp [reachList]

theorem reach_succ (d : Adj) (s : Int) (k : Nat) (n : Int) :
    n ∈ reachList d s (k + 1) ↔
      n ∈ reachList d s k ∨ ∃ m ∈ reachList d s k, n ∈ neighborsOf d m := by
  simp [reachList, List.mem_append, List.mem_flatMap]

theorem reach_mono (d : Adj) (s : Int) : ∀ {k l : Nat}, k ≤ l →
    ∀ n, n ∈ reachList d s k → n ∈ reachList d s l := by
  intro k l h
  induction h with
  | refl => exact fun n hn => hn
  | step _ ih =>
    intro n hn
    exact (reach_succ _ _ _ _).2 (Or.inl (ih n hn))

theorem reach_start (d : Adj) (s : Int) (k : Nat) : s ∈ reachList d s k :=
  reach_mono d s (Nat.zero_le k) s (by simp [reachList])

theorem mem_neighbors_hasKey (d : Adj) (hsim : Symm d) {m n : Int}
    (h : n ∈ neighborsOf d m) : hasKey d n = true := by
  have h2 : m ∈ neighborsOf d n := hsim m n h
  unfold neighborsOf at h2
  unfold hasKey
  cases ha : alookup d n with
  | some s => simp
  | none => rw [ha] at h2; simp at h2

theorem reach_hasKey (d : Adj) (s : Int) (hsim : Symm d) (hs : hasKey d s = true) :
    ∀ k n, n ∈ reachList d s k → hasKey d n = true := by
  intro k
  induction k with
  | zero =>
    intro n hn
    rw [reach_zero] at hn
    exact hn ▸ hs
  | succ k ih =>
    intro n hn
    rcases (reach_succ d s k n).1 hn with h | ⟨m, _, hnm⟩
    · exact ih n h
    · exact mem_neighbors_hasKey d hsim hnm

theorem reach_stab (d : Adj) (s : Int) (K : Nat)
    (h : ∀ n, n ∈ reachList d s (K + 1) → n ∈ reachList d s K) :
    ∀ j n, n ∈ reachList d s j → n ∈ reachList d s K := by
  intro j
  induction j with
  | zero => intro n hn; exact reach_mono d s (Nat.zero_le K) n hn
  | succ j ih =>
    intro n hn
    rcases (reach_succ d s j n).1 hn with h2 | ⟨m, hm, hnm⟩
    · exact ih n h2
    · exact h n ((reach_succ d s K n).2 (Or.inr ⟨m, ih m hm, hnm⟩))

theorem reach_iff_path (d : Adj) (s : Int) :
    ∀ k n, (n ∈ reachList d s k ↔ ∃ j ≤ k, IsPath d s n j) := by
  intro k
  induction k with
  | zero =>
    intro n
    rw [reach_zero]
    constructor
    · rintro rfl
      exact ⟨0, le_refl 0, IsPath.nil⟩
    · rintro ⟨j, hj, hp⟩
      have hj0 : j = 0 := Nat.le_zero.1 hj
      subst hj0
      cases hp
      rfl
  | succ k ih =>
    intro n
    rw [reach_succ]
    constructor
    · rintro (h | ⟨m, hm, hnm⟩)
      · obtain ⟨j, hj, hp⟩ := (ih n).1 h
        exact ⟨j, Nat.le_succ_of_le hj, hp⟩
      · obtain ⟨j, hj, hp⟩ := (ih m).1 hm
        exact ⟨j + 1, Nat.succ_le_succ hj, IsPath.snoc hp hnm⟩
    · rintro ⟨j, hj, hp⟩
      rcases Nat.lt_or_ge j (k + 1) with h2 | h2
      · exact Or.inl ((ih n).2 ⟨j, Nat.lt_succ_iff.1 h2, hp⟩)
      · have hj2 : j = k + 1 := Nat.le_antisymm hj h2
        subst hj2
        cases hp with
        | snoc hp2 hnm => exact Or.inr ⟨_, (ih _).2 ⟨_, le_refl _, hp2⟩, hnm⟩

theorem path_reach (d : Adj) (s n : Int) (j : Nat) (hp : IsPath d s n j) :
    n ∈ reachList d s j :=
  (reach_iff_path d s j n).2 ⟨j, le_refl j, hp⟩

theorem exists_firstAt (d : Adj) (s n : Int) (h : ∃ k, n ∈ reachList d s k) :
    ∃ k, firstAt d s n k :=
  ⟨Nat.find h, Nat.find_spec h, fun j hj => Nat.find_min h hj⟩

theorem firstAt_unique {d : Adj} {s n : Int} {k1 k2 : Nat}
    (h1 : firstAt d s n k1) (h2 : firstAt d s n k2) : k1 = k2 := by
  rcases Nat.lt_trichotomy k1 k2 with h | h | h
  · exact absurd h1.1 (h2.2 k1 h)
  · exact h
  · exact absurd h2.1 (h1.2 k2 h)

/-- The first level of a node is the length of a shortest path to it. -/
theorem firstAt_shortest (d : Adj) (s n : Int) (k : Nat) (h : firstAt d s n k) :
    IsPath d s n k ∧ ∀ j, IsPath d s n j → k ≤ j := by
  constructor
  · obtain ⟨j, hj, hp⟩ := (reach_iff_path d s k n).1 h.1
    rcases Nat.lt_or_ge j k with h2 | h2
    · exact absurd (path_reach d s n j hp) (h.2 j h2)
    · have : j = k := Nat.le_antisymm hj h2
      exact this ▸ hp
  · intro j hp
    by_contra h2
    push_neg at h2
    exact h.2 j h2 (path_reach d s n j hp)

theorem round_frontier_aux (d : Adj) (start : Int) (r : Nat)
    (seen queue : List Int)
    (hseen : ∀ n, n ∈ seen ↔ n ∈ reachList d start r)
    (hqueue : ∀ n, n ∈ queue ↔
      (n ∈ reachList d start r ∧ ∀ j < r, ¬ n ∈ reachList d start j)) :
    ∀ n m, m ∈ reachList d start r → n ∈ neighborsOf d m → ¬ m ∈ queue →
      n ∈ reachList d start r := by
  intro n m hm hnm hmq
  have hex : ∃ j < r, m ∈ reachList d start j := by
    by_contra hc
    push_neg at hc
    exact hmq ((hqueue m).2 ⟨hm, hc⟩)
  obtain ⟨j, hj, hmj⟩ := hex
  have hn : n ∈ reachList d start (j + 1) :=
    (reach_succ d start j n).2 (Or.inr ⟨m, hmj, hnm⟩)
  exact reach_mono d start (Nat.succ_le_of_lt hj) n hn

theorem round_step (d : Adj) (start : Int) (hsim : Symm d)
    (hstart : hasKey d start = true) (r : Nat)
    (seen : List Int) (pairs : List (Int × Int)) (queue : List Int)
    (hseen : ∀ n, n ∈ seen ↔ n ∈ reachList d start r)
    (hqueue : ∀ n, n ∈ queue ↔
      (n ∈ reachList d start r ∧ ∀ j < r, ¬ n ∈ reachList d start j))
    (hpairs : ∀ n v, (n, v) ∈ pairs ↔
      (n ≠ start ∧ ∃ k, k ≤ r ∧ firstAt d start n k ∧ v = (k : Int)))
    (hpnodup : (pairs.map Prod.fst).Nodup)
    (hpseen : ∀ p ∈ pairs, p.1 ∈ seen) :
    (bfsLevel queue d seen pairs [] ((r : Int) + 1)).1 = d ∧
    (∀ n, n ∈ (bfsLevel queue d seen pairs [] ((r : Int) + 1)).2.1 ↔
      n ∈ reachList d start (r + 1)) ∧
    (∀ n, n ∈ (bfsLevel queue d seen pairs [] ((r : Int) + 1)).2.2.2 ↔
      (n ∈ reachList d start (r + 1) ∧ ∀ j < r + 1, ¬ n ∈ reachList d start j)) ∧
    (∀ n v, (n, v) ∈ (bfsLevel queue d seen pairs [] ((r : Int) + 1)).2.2.1 ↔
      (n ≠ start ∧ ∃ k, k ≤ r + 1 ∧ firstAt d start n k ∧ v = (k : Int))) ∧
    ((bfsLevel queue d seen pairs [] ((r : Int) + 1)).2.2.1.map Prod.fst).Nodup ∧
    (∀ p ∈ (bfsLevel queue d seen pairs [] ((r : Int) + 1)).2.2.1,
      p.1 ∈ (bfsLevel queue d seen pairs [] ((r : Int) + 1)).2.1) := by
  have hkQ : ∀ m ∈ queue, hasKey d m = true := fun m hm =>
    reach_hasKey d start hsim hstart r m ((hqueue m).1 hm).1
  refine ⟨bfsLevel_frame queue d seen pairs [] _ hkQ, ?_, ?_, ?_,
    (bfsLevel_pairs_inv queue d seen pairs [] _ hpnodup hpseen).1,
    (bfsLevel_pairs_inv queue d seen pairs [] _ hpnodup hpseen).2⟩
  · intro n
    rw [bfsLevel_seen_mem queue d seen pairs [] _ n hkQ]
    constructor
    · rintro (hn | ⟨m, hm, hnm⟩)
      · exact reach_mono d start (Nat.le_succ r) n ((hseen n).1 hn)
      · exact (reach_succ d start r n).2 (Or.inr ⟨m, ((hqueue m).1 hm).1, hnm⟩)
    · intro hn
      rcases (reach_succ d start r n).1 hn with hn2 | ⟨m, hm, hnm⟩
      · exact Or.inl ((hseen n).2 hn2)
      · by_cases hmq : m ∈ queue
        · exact Or.inr ⟨m, hmq, hnm⟩
        · exact Or.inl ((hseen n).2
            (round_frontier_aux d start r seen queue hseen hqueue n m hm hnm hmq))
  · intro n
    rw [bfsLevel_next_mem queue d seen pairs [] _ n hkQ]
    simp only [List.not_mem_nil, false_or]
    constructor
    · rintro ⟨hns, m, hm, hnm⟩
      have hnr : ¬ n ∈ reachList d start r := fun hc => hns ((hseen n).2 hc)
      refine ⟨(reach_succ d start r n).2 (Or.inr ⟨m, ((hqueue m).1 hm).1, hnm⟩), ?_⟩
      intro j hj hc
      exact hnr (reach_mono d start (Nat.lt_succ_iff.1 hj) n hc)
    · rintro ⟨hn, hfirst⟩
      have hnr : ¬ n ∈ reachList d start r := hfirst r (Nat.lt_succ_self r)
      have hns : ¬ n ∈ seen := fun hc => hnr ((hseen n).1 hc)
      refine ⟨hns, ?_⟩
      rcases (reach_succ d start r n).1 hn with hn2 | ⟨m, hm, hnm⟩
      · exact absurd hn2 hnr
      · by_cases hmq : m ∈ queue
        · exact ⟨m, hmq, hnm⟩
        · exact absurd
            (round_frontier_aux d start r seen queue hseen hqueue n m hm hnm hmq) hnr
  · intro n v
    rw [bfsLevel_pairs_mem queue d seen pairs [] _ n v hkQ]
    constructor
    · rintro (hold | ⟨hns, hv, m, hm, hnm⟩)
      · obtain ⟨hne, k, hk, hf, hv⟩ := (hpairs n v).1 hold
        exact ⟨hne, k, Nat.le_succ_of_le hk, hf, hv⟩
      · have hnr : ¬ n ∈ reachList d start r := fun hc => hns ((hseen n).2 hc)
        have hreach : n ∈ reachList d start (r + 1) :=
          (reach_succ d start r n).2 (Or.inr ⟨m, ((hqueue m).1 hm).1, hnm⟩)
        have hne : n ≠ start := fun he => hnr (by rw [he]; exact reach_start d start r)
        refine ⟨hne, r + 1, le_refl _, ⟨hreach, ?_⟩, ?_⟩
        · intro j hj hc
          exact hnr (reach_mono d start (Nat.lt_succ_iff.1 hj) n hc)
        · rw [hv]; push_cast; ring
    · rintro ⟨hne, k, hk, hf, hv⟩
      rcases Nat.lt_or_ge k (r + 1) with h2 | h2
      · exact Or.inl ((hpairs n v).2 ⟨hne, k, Nat.lt_succ_iff.1 h2, hf, hv⟩)
      · have hk2 : k = r + 1 := Nat.le_antisymm hk h2
        subst hk2
        have hnr : ¬ n ∈ reachList d start r := hf.2 r (Nat.lt_succ_self r)
        have hns : ¬ n ∈ seen := fun hc => hnr ((hseen n).1 hc)
        refine Or.inr ⟨hns, ?_, ?_⟩
        · rw [hv]; push_cast; ring
        · rcases (reach_succ d start r n).1 hf.1 with hn2 | ⟨m, hm, hnm⟩
          · exact absurd hn2 hnr
          · by_cases hmq : m ∈ queue
            · exact ⟨m, hmq, hnm⟩
            · exact absurd
                (round_frontier_aux d start r seen queue hseen hqueue n m hm hnm hmq) hnr

theorem bfsLoop_nil (d : Adj) (seen : List Int) (pairs : List (Int × Int))
    (dist : Int) (hs : seen.Nodup) :
    bfsLoop d seen pairs [] dist hs = (d, seen, pairs) := by
  rw [bfsLoop.eq_def]
  simp

theorem bfsLoop_cons (d : Adj) (seen : List Int) (pairs : List (Int × Int))
    (queue : List Int) (dist : Int) (hs : seen.Nodup) (hq : queue ≠ []) :
    bfsLoop d seen pairs queue dist hs =
      bfsLoop (bfsLevel queue d seen pairs [] (dist + 1)).1
        (bfsLevel queue d seen pairs [] (dist + 1)).2.1
        (bfsLevel queue d seen pairs [] (dist + 1)).2.2.1
        (bfsLevel queue d seen pairs [] (dist + 1)).2.2.2
        (dist + 1)
        (bfsLevel_nodup queue d seen pairs [] (dist + 1) hs) := by
  rw [bfsLoop.eq_def]
  simp only [dif_neg hq]

theorem loop_terminal (start : Int) (d : Adj) (r : Nat) (seen : List Int)
    (pairs : List (Int × Int))
    (hseen : ∀ n, n ∈ seen ↔ n ∈ reachList d start r)
    (hempty : ∀ n, ¬ (n ∈ reachList d start r ∧ ∀ j < r, ¬ n ∈ reachList d start j))
    (hpairs : ∀ n v, (n, v) ∈ pairs ↔
      (n ≠ start ∧ ∃ k, k ≤ r ∧ firstAt d start n k ∧ v = (k : Int))) :
    (∀ n, n ∈ seen ↔ ∃ k, n ∈ reachList d start k) ∧
    (∀ n v, (n, v) ∈ pairs ↔
      (n ≠ start ∧ ∃ k, firstAt d start n k ∧ v = (k : Int))) := by
  rcases r with _ | r0
  · exact absurd ⟨reach_start d start 0, by omega⟩ (hempty start)
  · have hsub : ∀ n, n ∈ reachList d start (r0 + 1) → n ∈ reachList d start r0 := by
      intro n hn
      by_contra hc
      refine hempty n ⟨hn, ?_⟩
      intro j hj hcc
      exact hc (reach_mono d start (Nat.lt_succ_iff.1 hj) n hcc)
    have hstab := reach_stab d start r0 hsub
    have hup : ∀ k n, n ∈ reachList d start k → n ∈ reachList d start (r0 + 1) :=
      fun k n hn => reach_mono d start (Nat.le_succ r0) n (hstab k n hn)
    constructor
    · intro n
      rw [hseen n]
      exact ⟨fun h => ⟨r0 + 1, h⟩, fun ⟨k, hk⟩ => hup k n hk⟩
    · intro n v
      rw [hpairs n v]
      constructor
      · rintro ⟨hne, k, _, hf, hv⟩
        exact ⟨hne, k, hf, hv⟩
      · rintro ⟨hne, k, hf, hv⟩
        refine ⟨hne, k, ?_, hf, hv⟩
        by_contra hc
        push_neg at hc
        exact hf.2 (r0 + 1) hc (hup k n hf.1)

theorem bfsLoop_master (start : Int) : ∀ (N : Nat) (d : Adj) (seen : List Int)
    (pairs : List (Int × Int)) (queue : List Int) (dist : Int)
    (hs : seen.Nodup) (r : Nat),
    bfsMeasure d seen queue ≤ N →
    Symm d → hasKey d start = true → dist = (r : Int) →
    (∀ n, n ∈ seen ↔ n ∈ reachList d start r) →
    (∀ n, n ∈ queue ↔
      (n ∈ reachList d start r ∧ ∀ j < r, ¬ n ∈ reachList d start j)) →
    (∀ n v, (n, v) ∈ pairs ↔
      (n ≠ start ∧ ∃ k, k ≤ r ∧ firstAt d start n k ∧ v = (k : Int))) →
    (pairs.map Prod.fst).Nodup →
    (∀ p ∈ pairs, p.1 ∈ seen) →
    (bfsLoop d seen pairs queue dist hs).1 = d ∧
    (∀ n, n ∈ (bfsLoop d seen pairs queue dist hs).2.1 ↔
      ∃ k, n ∈ reachList d start k) ∧
    (∀ n v, (n, v) ∈ (bfsLoop d seen pairs queue dist hs).2.2 ↔
      (n ≠ start ∧ ∃ k, firstAt d start n k ∧ v = (k : Int))) ∧
    ((bfsLoop d seen pairs queue dist hs).2.2.map Prod.fst).Nodup := by
  intro N
  induction N with
  | zero =>
    intro d seen pairs queue dist hs r hN hsim hstart hdist hseen hqueue hpairs hpnodup hpseen
    have hq : queue = [] := by
      by_contra hc
      unfold bfsMeasure at hN
      rw [if_neg hc] at hN
      omega
    subst hq
    rw [bfsLoop_nil]
    have hempty : ∀ n,
        ¬ (n ∈ reachList d start r ∧ ∀ j < r, ¬ n ∈ reachList d start j) := by
      intro n hc
      have h2 := (hqueue n).2 hc
      simp at h2
    obtain ⟨c1, c2⟩ := loop_terminal start d r seen pairs hseen hempty hpairs
    exact ⟨rfl, c1, c2, hpnodup⟩
  | succ N ih =>
    intro d seen pairs queue dist hs r hN hsim hstart hdist hseen hqueue hpairs hpnodup hpseen
    by_cases hq : queue = []
    · subst hq
      rw [bfsLoop_nil]
      have hempty : ∀ n,
          ¬ (n ∈ reachList d start r ∧ ∀ j < r, ¬ n ∈ reachList d start j) := by
        intro n hc
        have h2 := (hqueue n).2 hc
        simp at h2
      obtain ⟨c1, c2⟩ := loop_terminal start d r seen pairs hseen hempty hpairs
      exact ⟨rfl, c1, c2, hpnodup⟩
    · rw [bfsLoop_cons d seen pairs queue dist hs hq]
      subst hdist
      obtain ⟨s1, s2, s3, s4, s5, s6⟩ :=
        round_step d start hsim hstart r seen pairs queue hseen hqueue hpairs hpnodup hpseen
      have hdec := measure_decreases d seen pairs queue ((r : Int) + 1) hs hq
      have hN2 : bfsMeasure (bfsLevel queue d seen pairs [] ((r : Int) + 1)).1
          (bfsLevel queue d seen pairs [] ((r : Int) + 1)).2.1
          (bfsLevel queue d seen pairs [] ((r : Int) + 1)).2.2.2 ≤ N := by
        omega
      rw [s1] at hN2 ⊢
      have hdist2 : (r : Int) + 1 = ((r + 1 : Nat) : Int) := by push_cast; ring
      exact ih d
        (bfsLevel queue d seen pairs [] ((r : Int) + 1)).2.1
        (bfsLevel queue d seen pairs [] ((r : Int) + 1)).2.2.1
        (bfsLevel queue d seen pairs [] ((r : Int) + 1)).2.2.2
        ((r : Int) + 1) _ (r + 1) hN2 hsim hstart hdist2 s2 s3 s4 s5 s6

theorem reachable_iff_level (d : Adj) (s n : Int) :
    Reachable d s n ↔ ∃ k, n ∈ reachList d s k := by
  constructor
  · rintro ⟨k, hp⟩
    exact ⟨k, path_reach d s n k hp⟩
  · rintro ⟨k, hk⟩
    obtain ⟨j, _, hp⟩ := (reach_iff_path d s k n).1 hk
    exact ⟨j, hp⟩

theorem hasKey_iff (d : Adj) (n : Int) : hasKey d n = true ↔ n ∈ d.map Prod.fst := by
  induction d with
  | nil => simp [hasKey, alookup]
  | cons p rest ih =>
    rcases p with ⟨a, b⟩
    by_cases h : a = n
    · subst h
      simp [hasKey, alookup]
    · simp only [hasKey, alookup, if_neg h, List.map_cons, List.mem_cons]
      unfold hasKey at ih
      rw [ih]
      constructor
      · exact Or.inr
      · rintro (h2 | h2)
        · exact absurd h2.symm h
        · exact h2

/-- The workhorse: on a graph satisfying the invariants, bfs returns ok,
leaves the graph unchanged, and its pair list has duplicate-free node
keys and holds (n, first level of n) for reachable n other than start
and (n, -1) for unreachable graph nodes. -/
theorem bfs_master (g : Graph) (start : Int) (hinv : GraphInv g)
    (hstart : g.contains start = true) :
    ∃ pr, g.bfs start = Except.ok (pr, g) ∧
      (pr.map Prod.fst).Nodup ∧
      (∀ n v, (n, v) ∈ pr ↔
        (n ≠ start ∧ g.contains n = true ∧
          ((∃ k, firstAt g.adjacency_dict start n k ∧ v = (k : Int)) ∨
           (¬ Reachable g.adjacency_dict start n ∧ v = -1)))) := by
  obtain ⟨hkeys, hall, hsim⟩ := hinv
  have hstart2 : hasKey g.adjacency_dict start = true := hstart
  have h0seen : ∀ n, n ∈ [start] ↔ n ∈ reachList g.adjacency_dict start 0 := by
    intro n
    simp [reachList]
  have h0queue : ∀ n, n ∈ [start] ↔
      (n ∈ reachList g.adjacency_dict start 0 ∧
        ∀ j < 0, ¬ n ∈ reachList g.adjacency_dict start j) := by
    intro n
    simp [reachList]
  have h0pairs : ∀ n v, (n, v) ∈ ([] : List (Int × Int)) ↔
      (n ≠ start ∧ ∃ k, k ≤ 0 ∧ firstAt g.adjacency_dict start n k ∧ v = (k : Int)) := by
    intro n v
    simp only [List.not_mem_nil, false_iff]
    rintro ⟨hne, k, hk, hf, _⟩
    have hk0 : k = 0 := Nat.le_zero.1 hk
    subst hk0
    exact hne ((reach_zero _ _ _).1 hf.1)
  obtain ⟨m1, m2, m3, m4⟩ := bfsLoop_master start
    (bfsMeasure g.adjacency_dict [start] [start])
    g.adjacency_dict [start] [] [start] 0 (List.nodup_singleton start) 0
    (le_refl _) hsim hstart2 (by simp) h0seen h0queue h0pairs (by simp) (by simp)
  have hstartSeen : start ∈
      (bfsLoop g.adjacency_dict [start] [] [start] 0 (List.nodup_singleton start)).2.1 :=
    (m2 start).2 ⟨0, reach_start _ _ 0⟩
  refine ⟨(bfsLoop g.adjacency_dict [start] [] [start] 0 (List.nodup_singleton start)).2.2 ++
      (g.all_nodes.filter (fun n => decide (¬ n ∈
        (bfsLoop g.adjacency_dict [start] [] [start] 0
          (List.nodup_singleton start)).2.1))).map (fun n => (n, (-1 : Int))),
    ?_, ?_, ?_⟩
  · unfold Graph.bfs
    rw [hstart, if_neg (by simp)]
    show Except.ok
      (_, Graph.mk
        (bfsLoop g.adjacency_dict [start] [] [start] 0 (List.nodup_singleton start)).1
        g.all_nodes) = _
    rw [m1]
  · rw [List.map_append, List.nodup_append]
    refine ⟨m4, ?_, ?_⟩
    · have hm : ((g.all_nodes.filter (fun n => decide (¬ n ∈
          (bfsLoop g.adjacency_dict [start] [] [start] 0
            (List.nodup_singleton start)).2.1))).map
            (fun n => (n, (-1 : Int)))).map Prod.fst =
          g.all_nodes.filter (fun n => decide (¬ n ∈
            (bfsLoop g.adjacency_dict [start] [] [start] 0
              (List.nodup_singleton start)).2.1)) := by
        rw [List.map_map]
        have hcomp : (Prod.fst ∘ fun n : Int => (n, (-1 : Int))) = id := rfl
        rw [hcomp, List.map_id]
      rw [hm]
      have hAllNodup : g.all_nodes.Nodup := by rw [hall]; exact hkeys
      exact hAllNodup.filter _
    · intro x hx1 hx2
      rw [List.mem_map] at hx1 hx2
      obtain ⟨pnv, hnv, hnx⟩ := hx1
      obtain ⟨pm, hpm, hpmx⟩ := hx2
      rw [List.mem_map] at hpm
      obtain ⟨m, hmf, hmp⟩ := hpm
      rw [List.mem_filter] at hmf
      obtain ⟨k, hf, _⟩ := ((m3 pnv.1 pnv.2).1 hnv).2
      have hxseen : x ∈
          (bfsLoop g.adjacency_dict [start] [] [start] 0
            (List.nodup_singleton start)).2.1 :=
        (m2 x).2 ⟨k, by rw [← hnx]; exact hf.1⟩
      have hmx : m = x := by
        rw [← hpmx, ← hmp]
      rw [hmx] at hmf
      have hdec := hmf.2
      simp only [decide_eq_true_eq] at hdec
      exact hdec hxseen
  · intro n v
    rw [List.mem_append]
    constructor
    · rintro (h | h)
      · obtain ⟨hne, k, hf, hv⟩ := (m3 n v).1 h
        have hckey : g.contains n = true :=
          reach_hasKey _ start hsim hstart2 k n hf.1
        exact ⟨hne, hckey, Or.inl ⟨k, hf, hv⟩⟩
      · simp only [List.mem_map, List.mem_filter] at h
        obtain ⟨m, ⟨hmall, hmns⟩, hmv⟩ := h
        have hmn : m = n := congrArg Prod.fst hmv
        have hvm : v = -1 := (congrArg Prod.snd hmv).symm
        subst hmn
        simp only [decide_eq_true_eq] at hmns
        have hcont : g.contains m = true := (hasKey_iff _ _).2 (hall ▸ hmall)
        have hnr : ¬ Reachable g.adjacency_dict start m := by
          intro hr
          obtain ⟨k, hk⟩ := (reachable_iff_level _ _ _).1 hr
          exact hmns ((m2 m).2 ⟨k, hk⟩)
        have hne : m ≠ start := by
          intro he
          exact hmns (he ▸ hstartSeen)
        exact ⟨hne, hcont, Or.inr ⟨hnr, hvm⟩⟩
    · rintro ⟨hne, hcont, hbr | hbr⟩
      · exact Or.inl ((m3 n v).2 ⟨hne, hbr⟩)
      · obtain ⟨hnr, hv⟩ := hbr
        right
        have hnseen : ¬ n ∈
            (bfsLoop g.adjacency_dict [start] [] [start] 0
              (List.nodup_singleton start)).2.1 := by
          intro hc
          exact hnr ((reachable_iff_level _ _ _).2 ((m2 n).1 hc))
        simp only [List.mem_map, List.mem_filter]
        refine ⟨n, ⟨by rw [hall]; exact (hasKey_iff _ _).1 hcont, by simp [hnseen]⟩,
          by rw [hv]⟩

theorem mem_setAdd (s : List Int) (v x : Int) : x ∈ setAdd s v ↔ x ∈ s ∨ x = v := by
  unfold setAdd
  by_cases h : v ∈ s
  · rw [if_pos h]
    constructor
    · exact Or.inl
    · rintro (h2 | h2)
      · exact h2
      · exact h2 ▸ h
  · rw [if_neg h]
    simp [List.mem_append]

theorem alookup_dictAddToSet_self (d : Adj) (k v : Int) :
    alookup (dictAddToSet d k v) k = some (setAdd (neighborsOf d k) v) := by
  induction d with
  | nil => simp [dictAddToSet, alookup, neighborsOf]
  | cons p rest ih =>
    rcases p with ⟨a, s⟩
    by_cases h : a = k
    · subst h
      simp [dictAddToSet, alookup, neighborsOf]
    · simp only [dictAddToSet, if_neg h, alookup, neighborsOf]
      exact ih

theorem alookup_dictAddToSet_other (d : Adj) (k v m : Int) (h : m ≠ k) :
    alookup (dictAddToSet d k v) m = alookup d m := by
  induction d with
  | nil =>
    simp only [dictAddToSet, alookup]
    rw [if_neg (fun h2 : k = m => h h2.symm)]
  | cons p rest ih =>
    rcases p with ⟨a, s⟩
    by_cases h2 : a = k
    · have han : ¬ a = m := fun hc => h (h2.symm.trans hc).symm
      simp [dictAddToSet, alookup, h2, han, Ne.symm h]
    · by_cases h3 : a = m
      · simp [dictAddToSet, alookup, h2, h3, h]
      · simp [dictAddToSet, alookup, h2, h3, ih]

theorem neighborsOf_dictAddToSet (d : Adj) (k v m : Int) :
    neighborsOf (dictAddToSet d k v) m =
      if m = k then setAdd (neighborsOf d k) v else neighborsOf d m := by
  by_cases h : m = k
  · subst h
    rw [if_pos rfl]
    unfold neighborsOf
    rw [alookup_dictAddToSet_self]
    rfl
  · rw [if_neg h]
    unfold neighborsOf
    rw [alookup_dictAddToSet_other d k v m h]

theorem keys_dictAddToSet_present (d : Adj) (k v : Int) (h : hasKey d k = true) :
    (dictAddToSet d k v).map Prod.fst = d.map Prod.fst := by
  induction d with
  | nil => simp [hasKey, alookup] at h
  | cons p rest ih =>
    rcases p with ⟨a, s⟩
    by_cases h2 : a = k
    · subst h2
      simp [dictAddToSet]
    · have h3 : hasKey rest k = true := by
        unfold hasKey at h ⊢
        rwa [show alookup ((a, s) :: rest) k = alookup rest k from by
          simp [alookup, h2]] at h
      simp [dictAddToSet, h2, ih h3]

theorem keys_dictAddToSet_absent (d : Adj) (k v : Int) (h : hasKey d k = false) :
    (dictAddToSet d k v).map Prod.fst = d.map Prod.fst ++ [k] := by
  induction d with
  | nil => simp [dictAddToSet]
  | cons p rest ih =>
    rcases p with ⟨a, s⟩
    by_cases h2 : a = k
    · subst h2
      unfold hasKey at h
      rw [show alookup ((a, s) :: rest) a = some s from by simp [alookup]] at h
      simp at h
    · have h3 : hasKey rest k = false := by
        unfold hasKey at h ⊢
        rwa [show alookup ((a, s) :: rest) k = alookup rest k from by
          simp [alookup, h2]] at h
      simp [dictAddToSet, h2, ih h3]

theorem keys_nodup_dictAddToSet (d : Adj) (k v : Int)
    (h : (d.map Prod.fst).Nodup) : ((dictAddToSet d k v).map Prod.fst).Nodup := by
  cases hk : hasKey d k
  · rw [keys_dictAddToSet_absent d k v hk]
    rw [List.nodup_append]
    refine ⟨h, by simp, ?_⟩
    intro x hx hx2
    simp at hx2
    subst hx2
    have h2 := (hasKey_iff d x).2 hx
    rw [hk] at h2
    exact absurd h2 (by simp)
  · rw [keys_dictAddToSet_present d k v hk]
    exact h

theorem mem_neighbors_add_pair (d : Adj) (u v a b : Int) :
    b ∈ neighborsOf (dictAddToSet (dictAddToSet d u v) v u) a ↔
      b ∈ neighborsOf d a ∨ (a = u ∧ b = v) ∨ (a = v ∧ b = u) := by
  rw [neighborsOf_dictAddToSet]
  by_cases hav : a = v
  · rw [if_pos hav]
    rw [mem_setAdd]
    rw [neighborsOf_dictAddToSet]
    by_cases hvu : v = u
    · rw [if_pos hvu]
      rw [mem_setAdd]
      subst hav
      subst hvu
      tauto
    · rw [if_neg hvu]
      subst hav
      tauto
  · rw [if_neg hav]
    rw [neighborsOf_dictAddToSet]
    by_cases hau : a = u
    · rw [if_pos hau]
      rw [mem_setAdd]
      subst hau
      tauto
    · rw [if_neg hau]
      tauto

theorem Symm_dictAdd_pair (d : Adj) (u v : Int) (h : Symm d) :
    Symm (dictAddToSet (dictAddToSet d u v) v u) := by
  intro a b hab
  rw [mem_neighbors_add_pair] at hab ⊢
  rcases hab with h1 | ⟨h1, h2⟩ | ⟨h1, h2⟩
  · exact Or.inl (h a b h1)
  · exact Or.inr (Or.inr ⟨h2, h1⟩)
  · exact Or.inr (Or.inl ⟨h2, h1⟩)

theorem alookup_append (d e : Adj) (m : Int) :
    alookup (d ++ e) m =
      match alookup d m with
      | some s => some s
      | none => alookup e m := by
  induction d with
  | nil => simp [alookup]
  | cons p rest ih =>
    rcases p with ⟨a, s⟩
    by_cases h : a = m
    · subst h
      simp [alookup]
    · simp [alookup, h, ih]

theorem neighborsOf_append_empty (d : Adj) (n m : Int) :
    neighborsOf (d ++ [(n, [])]) m = neighborsOf d m := by
  unfold neighborsOf
  rw [alookup_append]
  cases h : alookup d m with
  | some s => simp
  | none => by_cases h2 : n = m <;> simp [alookup, h2]

theorem add_edge_graphInv (g : Graph) (e : Int × Int) (h : GraphInv g) :
    GraphInv (g.add_edge e) := by
  obtain ⟨hk, ha, hs⟩ := h
  unfold Graph.add_edge
  by_cases hc : g.is_edge_in_graph e
  · rw [if_pos hc]
    exact ⟨hk, ha, hs⟩
  · rw [if_neg hc]
    exact ⟨keys_nodup_dictAddToSet _ _ _ (keys_nodup_dictAddToSet _ _ _ hk), rfl,
      Symm_dictAdd_pair _ _ _ hs⟩

theorem add_node_graphInv (g : Graph) (n : Int) (h : GraphInv g) :
    GraphInv (g.add_node n) := by
  obtain ⟨hk, ha, hs⟩ := h
  unfold Graph.add_node
  by_cases hc : g.contains n
  · rw [if_pos hc]
    exact ⟨hk, ha, hs⟩
  · rw [if_neg hc]
    refine ⟨?_, rfl, ?_⟩
    · show (List.map Prod.fst (g.adjacency_dict ++ [(n, [])])).Nodup
      rw [List.map_append]
      rw [List.nodup_append]
      refine ⟨hk, by simp, ?_⟩
      intro x hx hx2
      simp at hx2
      subst hx2
      exact hc ((hasKey_iff g.adjacency_dict x).2 hx)
    · show Symm (g.adjacency_dict ++ [(n, [])])
      intro a b hab
      rw [neighborsOf_append_empty] at hab ⊢
      exact hs a b hab

theorem graphInv_empty : GraphInv (Graph.mk [] []) :=
  ⟨by simp, by simp, fun a b h => by simp [neighborsOf, alookup] at h⟩

theorem foldl_add_edge_graphInv (E : List (Int × Int)) :
    ∀ g, GraphInv g → GraphInv (E.foldl (fun g e => g.add_edge e) g) := by
  induction E with
  | nil => exact fun g h => h
  | cons e E ih =>
    intro g h
    exact ih _ (add_edge_graphInv g e h)

theorem construct_inv (E : List (Int × Int)) : GraphInv (construct E) := by
  unfold construct
  by_cases h : E.isEmpty
  · rw [if_pos h]
    exact graphInv_empty
  · rw [if_neg h]
    have h2 := foldl_add_edge_graphInv E (Graph.mk [] []) graphInv_empty
    exact ⟨h2.1, rfl, h2.2.2⟩

/-- A mutating call of the public interface. -/
inductive Op where
  | addE : Int × Int → Op
  | addN : Int → Op

/-- Apply one mutating call. -/
def applyOp (g : Graph) : Op → Graph
  | .addE e => g.add_edge e
  | .addN n => g.add_node n

/-- Apply a sequence of mutating calls in order. -/
def applyOps (g : Graph) (ops : List Op) : Graph := ops.foldl applyOp g

theorem applyOp_graphInv (g : Graph) (o : Op) (h : GraphInv g) :
    GraphInv (applyOp g o) := by
  cases o with
  | addE e => exact add_edge_graphInv g e h
  | addN n => exact add_node_graphInv g n h

theorem applyOps_graphInv (ops : List Op) : ∀ g, GraphInv g →
    GraphInv (applyOps g ops) := by
  induction ops with
  | nil => exact fun g h => h
  | cons o ops ih =>
    intro g h
    exact ih _ (applyOp_graphInv g o h)

theorem IsPath_append (d : Adj) (x y z : Int) (j k : Nat)
    (h1 : IsPath d x y j) (h2 : IsPath d y z k) : IsPath d x z (j + k) := by
  induction h2 with
  | nil => exact h1
  | snoc p hn ih => exact IsPath.snoc ih hn

theorem IsPath_single (d : Adj) {x y : Int} (h : y ∈ neighborsOf d x) :
    IsPath d x y 1 :=
  IsPath.snoc IsPath.nil h

theorem IsPath_reverse (d : Adj) (hsim : Symm d) {x y : Int} {k : Nat}
    (h : IsPath d x y k) : IsPath d y x k := by
  induction h with
  | nil => exact IsPath.nil
  | @snoc b c k0 p hn ih =>
    have h1 : IsPath d c b 1 := IsPath_single d (hsim b c hn)
    have h2 := IsPath_append d c b x 1 k0 h1 ih
    rwa [Nat.add_comm] at h2

theorem Reachable_symm (d : Adj) (hsim : Symm d) (x y : Int) :
    Reachable d x y ↔ Reachable d y x :=
  ⟨fun ⟨k, p⟩ => ⟨k, IsPath_reverse d hsim p⟩,
   fun ⟨k, p⟩ => ⟨k, IsPath_reverse d hsim p⟩⟩

theorem level_symm (d : Adj) (hsim : Symm d) (a b : Int) (k : Nat) :
    b ∈ reachList d a k ↔ a ∈ reachList d b k := by
  rw [reach_iff_path, reach_iff_path]
  constructor
  · rintro ⟨j, hj, hp⟩
    exact ⟨j, hj, IsPath_reverse d hsim hp⟩
  · rintro ⟨j, hj, hp⟩
    exact ⟨j, hj, IsPath_reverse d hsim hp⟩

theorem firstAt_symm (d : Adj) (hsim : Symm d) (a b : Int) (k : Nat) :
    firstAt d a b k ↔ firstAt d b a k := by
  unfold firstAt
  rw [level_symm d hsim a b k]
  constructor
  · rintro ⟨h1, h2⟩
    exact ⟨h1, fun j hj hc => h2 j hj ((level_symm d hsim a b j).2 hc)⟩
  · rintro ⟨h1, h2⟩
    exact ⟨h1, fun j hj hc => h2 j hj ((level_symm d hsim a b j).1 hc)⟩

theorem pairs_unique : ∀ (l : List (Int × Int)), (l.map Prod.fst).Nodup →
    ∀ n v w, (n, v) ∈ l → (n, w) ∈ l → v = w := by
  intro l
  induction l with
  | nil =>
    intro _ n v w h
    simp at h
  | cons p rest ih =>
    intro hnd n v w h1 h2
    rw [List.map_cons, List.nodup_cons] at hnd
    rcases List.mem_cons.1 h1 with h1 | h1 <;> rcases List.mem_cons.1 h2 with h2 | h2
    · exact congrArg Prod.snd (h1.trans h2.symm)
    · exfalso
      apply hnd.1
      rw [show p.1 = n from congrArg Prod.fst h1.symm]
      exact List.mem_map.2 ⟨(n, w), h2, rfl⟩
    · exfalso
      apply hnd.1
      rw [show p.1 = n from congrArg Prod.fst h2.symm]
      exact List.mem_map.2 ⟨(n, v), h1, rfl⟩
    · exact ih hnd.2 n v w h1 h2

theorem setEq_refl (s : List Int) : setEq s s = true := by
  simp [setEq, List.all_eq_true]

theorem alookup_self_of_nodup : ∀ (d : Adj), (d.map Prod.fst).Nodup →
    ∀ p : Int × List Int, p ∈ d → alookup d p.1 = some p.2 := by
  intro d
  induction d with
  | nil =>
    intro _ p hp
    simp at hp
  | cons q rest ih =>
    intro h p hp
    rw [List.map_cons, List.nodup_cons] at h
    rcases List.mem_cons.1 hp with h2 | h2
    · rw [h2]
      rcases q with ⟨a, s⟩
      simp [alookup]
    · have hne : ¬ q.1 = p.1 := by
        intro hc
        apply h.1
        rw [hc]
        exact List.mem_map.2 ⟨p, h2, rfl⟩
      rcases q with ⟨a, s⟩
      simp only [alookup]
      rw [if_neg hne]
      exact ih h.2 p h2

theorem dictEq_refl (d : Adj) (h : (d.map Prod.fst).Nodup) : dictEq d d = true := by
  unfold dictEq
  rw [Bool.and_eq_true]
  constructor <;>
  · rw [List.all_eq_true]
    intro p hp
    rw [alookup_self_of_nodup d h p hp]
    exact setEq_refl p.2

theorem beq_refl_of_nodup (g : Graph) (h : (g.adjacency_dict.map Prod.fst).Nodup) :
    g.beq g = true :=
  dictEq_refl _ h

theorem is_edge_iff (g : Graph) (e : Int × Int) :
    g.is_edge_in_graph e = true ↔ e.2 ∈ neighborsOf g.adjacency_dict e.1 := by
  unfold Graph.is_edge_in_graph neighborsOf
  cases h : alookup g.adjacency_dict e.1 with
  | none => simp
  | some s => simp

theorem add_edge_makes_edge (g : Graph) (e : Int × Int) :
    (g.add_edge e).is_edge_in_graph e = true := by
  rw [is_edge_iff]
  unfold Graph.add_edge
  by_cases hc : g.is_edge_in_graph e
  · rw [if_pos hc]
    exact (is_edge_iff g e).1 hc
  · rw [if_neg hc]
    show e.2 ∈ neighborsOf (dictAddToSet (dictAddToSet g.adjacency_dict e.1 e.2) e.2 e.1) e.1
    rw [mem_neighbors_add_pair]
    exact Or.inr (Or.inl ⟨rfl, rfl⟩)

theorem add_edge_idem (g : Graph) (e : Int × Int) :
    (g.add_edge e).add_edge e = g.add_edge e := by
  have h := add_edge_makes_edge g e
  show (if (g.add_edge e).is_edge_in_graph e then g.add_edge e else _) = g.add_edge e
  rw [if_pos h]

theorem add_node_contains (g : Graph) (n : Int) : (g.add_node n).contains n = true := by
  unfold Graph.add_node
  by_cases hc : g.contains n
  · rw [if_pos hc]
    exact hc
  · rw [if_neg hc]
    show hasKey (g.adjacency_dict ++ [(n, [])]) n = true
    unfold hasKey
    rw [alookup_append]
    cases h : alookup g.adjacency_dict n with
    | some s => simp
    | none => simp [alookup]

theorem add_node_idem (g : Graph) (n : Int) :
    (g.add_node n).add_node n = g.add_node n := by
  have h := add_node_contains g n
  show (if (g.add_node n).contains n then g.add_node n else _) = g.add_node n
  rw [if_pos h]

theorem add_edge_mono (g : Graph) (e : Int × Int) (a b : Int)
    (h : b ∈ neighborsOf g.adjacency_dict a) :
    b ∈ neighborsOf (g.add_edge e).adjacency_dict a := by
  unfold Graph.add_edge
  by_cases hc : g.is_edge_in_graph e
  · rw [if_pos hc]
    exact h
  · rw [if_neg hc]
    show b ∈ neighborsOf (dictAddToSet (dictAddToSet g.adjacency_dict e.1 e.2) e.2 e.1) a
    rw [mem_neighbors_add_pair]
    exact Or.inl h

theorem add_edge_symm (g : Graph) (e : Int × Int) (hs : Symm g.adjacency_dict) :
    Symm (g.add_edge e).adjacency_dict := by
  unfold Graph.add_edge
  by_cases hc : g.is_edge_in_graph e
  · rw [if_pos hc]
    exact hs
  · rw [if_neg hc]
    exact Symm_dictAdd_pair _ _ _ hs

theorem add_edge_mem_self (g : Graph) (e : Int × Int) (hsim : Symm g.adjacency_dict) :
    e.2 ∈ neighborsOf (g.add_edge e).adjacency_dict e.1 ∧
    e.1 ∈ neighborsOf (g.add_edge e).adjacency_dict e.2 := by
  have h1 := (is_edge_iff _ e).1 (add_edge_makes_edge g e)
  exact ⟨h1, add_edge_symm g e hsim e.1 e.2 h1⟩

theorem foldl_add_edge_mono (E : List (Int × Int)) : ∀ (g : Graph) (a b : Int),
    b ∈ neighborsOf g.adjacency_dict a →
    b ∈ neighborsOf (E.foldl (fun g e => g.add_edge e) g).adjacency_dict a := by
  induction E with
  | nil => exact fun g a b h => h
  | cons e E ih =>
    intro g a b h
    exact ih _ a b (add_edge_mono g e a b h)

theorem foldl_add_edge_symm (E : List (Int × Int)) : ∀ (g : Graph), Symm g.adjacency_dict →
    Symm (E.foldl (fun g e => g.add_edge e) g).adjacency_dict := by
  induction E with
  | nil => exact fun g h => h
  | cons e E ih =>
    intro g h
    exact ih _ (add_edge_symm g e h)

theorem foldl_add_edge_mem (E : List (Int × Int)) : ∀ (g : Graph) (u v : Int),
    Symm g.adjacency_dict → (u, v) ∈ E →
    v ∈ neighborsOf (E.foldl (fun g e => g.add_edge e) g).adjacency_dict u ∧
    u ∈ neighborsOf (E.foldl (fun g e => g.add_edge e) g).adjacency_dict v := by
  induction E with
  | nil =>
    intro g u v _ h
    simp at h
  | cons e E ih =>
    intro g u v hs he
    rcases List.mem_cons.1 he with rfl | he
    · have h1 := add_edge_mem_self g (u, v) hs
      exact ⟨foldl_add_edge_mono E _ u v h1.1, foldl_add_edge_mono E _ v u h1.2⟩
    · exact ih (g.add_edge e) u v (add_edge_symm g e hs) he

theorem construct_mem (E : List (Int × Int)) (u v : Int) (h : (u, v) ∈ E) :
    v ∈ neighborsOf (construct E).adjacency_dict u ∧
    u ∈ neighborsOf (construct E).adjacency_dict v := by
  unfold construct
  have hne : E.isEmpty = false := by
    cases E with
    | nil => simp at h
    | cons x t => simp
  rw [if_neg (by simp [hne])]
  show v ∈ neighborsOf (E.foldl (fun g e => g.add_edge e) (Graph.mk [] [])).adjacency_dict u ∧
    u ∈ neighborsOf (E.foldl (fun g e => g.add_edge e) (Graph.mk [] [])).adjacency_dict v
  exact foldl_add_edge_mem E (Graph.mk [] []) u v graphInv_empty.2.2 h

theorem distance_eval_err (g : Graph) (a b : Int)
    (h : g.contains a = false ∨ g.contains b = false) :
    g.distance a b = Except.error GErr.nodeNotFound := by
  unfold Graph.distance
  rw [if_pos h]

theorem distance_eval_same (g : Graph) (a : Int) (ha : g.contains a = true) :
    g.distance a a = Except.ok (0, g) := by
  unfold Graph.distance
  rw [if_neg (by simp [ha])]
  rw [if_pos rfl]

theorem distance_eval (g : Graph) (a b : Int) (ha : g.contains a = true)
    (hb : g.contains b = true) (hab : a ≠ b) (pr : List (Int × Int)) (g2 : Graph)
    (hok : g.bfs a = Except.ok (pr, g2)) (p : Int × Int) (t : List (Int × Int))
    (hfil : pr.filter (fun q => decide (q.1 = b)) = p :: t) :
    g.distance a b = Except.ok (p.2, g2) := by
  unfold Graph.distance
  rw [if_neg (by simp [ha, hb])]
  rw [if_neg hab]
  rw [hok]
  show (match pr.filter (fun q => decide (q.1 = b)) with
    | [] => Except.error GErr.indexError
    | p :: _ => Except.ok (p.2, g2)) = Except.ok (p.2, g2)
  rw [hfil]

theorem distance_eval_idx (g : Graph) (a b : Int) (ha : g.contains a = true)
    (hb : g.contains b = true) (hab : a ≠ b) (pr : List (Int × Int)) (g2 : Graph)
    (hok : g.bfs a = Except.ok (pr, g2))
    (hfil : pr.filter (fun q => decide (q.1 = b)) = []) :
    g.distance a b = Except.error GErr.indexError := by
  unfold Graph.distance
  rw [if_neg (by simp [ha, hb])]
  rw [if_neg hab]
  rw [hok]
  show (match pr.filter (fun q => decide (q.1 = b)) with
    | [] => Except.error GErr.indexError
    | p :: _ => Except.ok (p.2, g2)) = Except.error GErr.indexError
  rw [hfil]

theorem distance_char (g : Graph) (a b : Int) (hinv : GraphInv g)
    (ha : g.contains a = true) (hb : g.contains b = true) (hab : a ≠ b) :
    ∃ v, g.distance a b = Except.ok (v, g) ∧
      ((∃ k, firstAt g.adjacency_dict a b k ∧ v = (k : Int)) ∨
       (¬ Reachable g.adjacency_dict a b ∧ v = -1)) := by
  obtain ⟨pr, hok, hnd, hch⟩ := bfs_master g a hinv ha
  have hbentry : ∃ v0, (b, v0) ∈ pr := by
    by_cases hr : Reachable g.adjacency_dict a b
    · obtain ⟨k0, hk0⟩ := (reachable_iff_level _ _ _).1 hr
      obtain ⟨k, hf⟩ := exists_firstAt _ _ _ ⟨k0, hk0⟩
      exact ⟨(k : Int), (hch b (k : Int)).2 ⟨Ne.symm hab, hb, Or.inl ⟨k, hf, rfl⟩⟩⟩
    · exact ⟨-1, (hch b (-1)).2 ⟨Ne.symm hab, hb, Or.inr ⟨hr, rfl⟩⟩⟩
  obtain ⟨v0, hv0⟩ := hbentry
  have hfmem : (b, v0) ∈ pr.filter (fun q => decide (q.1 = b)) := by
    rw [List.mem_filter]
    exact ⟨hv0, by simp⟩
  cases hfil : pr.filter (fun q => decide (q.1 = b)) with
  | nil =>
    rw [hfil] at hfmem
    simp at hfmem
  | cons p t =>
    have hp : p ∈ pr.filter (fun q => decide (q.1 = b)) := by
      rw [hfil]
      exact List.mem_cons_self p t
    rw [List.mem_filter] at hp
    have hpb : p.1 = b := by simpa using hp.2
    refine ⟨p.2, distance_eval g a b ha hb hab pr g hok p t hfil, ?_⟩
    have hcb := (hch b p.2).1 (by rw [← hpb]; exact hp.1)
    exact hcb.2.2

/-- C1: for every graph satisfying the data-model invariants and every node
start in the graph, BFS(start) returns a pair list with exactly one entry
for each node other than start (start never appears, no node twice); each
reachable node is paired with the length in edges of a shortest path from
start, and each unreachable node is paired with -1. -/
theorem claim_C1_bfs_correct (g : Graph) (start : Int) (hinv : GraphInv g)
    (hstart : g.contains start = true) :
    ∃ pr g2, g.bfs start = Except.ok (pr, g2) ∧
      (pr.map Prod.fst).Nodup ∧
      (∀ n, n ∈ pr.map Prod.fst ↔ (g.contains n = true ∧ n ≠ start)) ∧
      (∀ n v, (n, v) ∈ pr →
        (Reachable g.adjacency_dict start n →
          ∃ k : Nat, v = (k : Int) ∧ IsPath g.adjacency_dict start n k ∧
            ∀ j, IsPath g.adjacency_dict start n j → k ≤ j) ∧
        (¬ Reachable g.adjacency_dict start n → v = -1)) := by
  obtain ⟨pr, hok, hnd, hch⟩ := bfs_master g start hinv hstart
  refine ⟨pr, g, hok, hnd, ?_, ?_⟩
  · intro n
    rw [List.mem_map]
    constructor
    · rintro ⟨⟨m, v⟩, hmv, hmn⟩
      obtain ⟨hne, hc, _⟩ := (hch m v).1 hmv
      exact ⟨hmn ▸ hc, hmn ▸ hne⟩
    · rintro ⟨hc, hne⟩
      by_cases hr : Reachable g.adjacency_dict start n
      · obtain ⟨k0, hk0⟩ := (reachable_iff_level _ _ _).1 hr
        obtain ⟨k, hf⟩ := exists_firstAt _ _ _ ⟨k0, hk0⟩
        exact ⟨(n, (k : Int)), (hch n (k : Int)).2 ⟨hne, hc, Or.inl ⟨k, hf, rfl⟩⟩, rfl⟩
      · exact ⟨(n, -1), (hch n (-1)).2 ⟨hne, hc, Or.inr ⟨hr, rfl⟩⟩, rfl⟩
  · intro n v hnv
    obtain ⟨hne, hc, hbr⟩ := (hch n v).1 hnv
    constructor
    · intro hr
      rcases hbr with ⟨k, hf, hv⟩ | ⟨hnr, _⟩
      · obtain ⟨hp, hmin⟩ := firstAt_shortest _ _ _ k hf
        exact ⟨k, hv, hp, hmin⟩
      · exact absurd hr hnr
    · intro hnr
      rcases hbr with ⟨k, hf, _⟩ | ⟨_, hv⟩
      · exact absurd ⟨k, (firstAt_shortest _ _ _ k hf).1⟩ hnr
      · exact hv

/-- Witness for C1 on the graph built from the single edge (1, 2) with
start node 1. -/
theorem claim_C1_witness :
    (construct [(1, 2)]).contains 1 = true ∧
    (∃ pr g2, (construct [(1, 2)]).bfs 1 = Except.ok (pr, g2) ∧
      (pr.map Prod.fst).Nodup ∧
      (∀ n, n ∈ pr.map Prod.fst ↔ ((construct [(1, 2)]).contains n = true ∧ n ≠ 1)) ∧
      (∀ n v, (n, v) ∈ pr →
        (Reachable (construct [(1, 2)]).adjacency_dict 1 n →
          ∃ k : Nat, v = (k : Int) ∧ IsPath (construct [(1, 2)]).adjacency_dict 1 n k ∧
            ∀ j, IsPath (construct [(1, 2)]).adjacency_dict 1 n j → k ≤ j) ∧
        (¬ Reachable (construct [(1, 2)]).adjacency_dict 1 n → v = -1))) :=
  ⟨by decide,
   claim_C1_bfs_correct (construct [(1, 2)]) 1 (construct_inv [(1, 2)]) (by decide)⟩

/-- C2 (code evaluation): iterating the graph built from edge (1, 2) to
exhaustion pops its stored node list empty while the adjacency keys
remain, and a subsequent fresh iteration yields nothing instead of
starting over, contradicting the claimed iteration behavior. -/
theorem claim_C2_code_eval :
    (construct [(1, 2)]).next = some (1, Graph.mk [(1, [2]), (2, [1])] [2]) ∧
    (Graph.mk [(1, [2]), (2, [1])] [2]).next =
      some (2, Graph.mk [(1, [2]), (2, [1])] []) ∧
    (Graph.mk [(1, [2]), (2, [1])] []).next = none ∧
    (Graph.mk [(1, [2]), (2, [1])] []).all_nodes = [] ∧
    (Graph.mk [(1, [2]), (2, [1])] []).adjacency_dict.map Prod.fst = [1, 2] := by
  refine ⟨?_, ?_, ?_, ?_, ?_⟩ <;> decide

/-- C3 (code evaluation): after one iteration step on the graph built from
edge (1, 2), the node-order list no longer contains exactly the adjacency
keys, so the claimed invariant fails under iteration steps. -/
theorem claim_C3_code_eval :
    (construct [(1, 2)]).next = some (1, Graph.mk [(1, [2]), (2, [1])] [2]) ∧
    ¬ ((Graph.mk [(1, [2]), (2, [1])] [2]).all_nodes =
        (Graph.mk [(1, [2]), (2, [1])] [2]).adjacency_dict.map Prod.fst) := by
  refine ⟨?_, ?_⟩ <;> decide

/-- C4: on a graph satisfying the data-model invariants, Neighbors, BFS and
Distance fail with the node-not-found error exactly when a queried node is
absent from the adjacency mapping, and succeed otherwise, so no other
error condition arises. -/
theorem claim_C4_errors (g : Graph) (hinv : GraphInv g) :
    (∀ n, (g.contains n = false → g.neighbors n = Except.error GErr.nodeNotFound) ∧
      (g.contains n = true → ∃ s, g.neighbors n = Except.ok s)) ∧
    (∀ s, (g.contains s = false → g.bfs s = Except.error GErr.nodeNotFound) ∧
      (g.contains s = true → ∃ pr g2, g.bfs s = Except.ok (pr, g2))) ∧
    (∀ a b, ((g.contains a = false ∨ g.contains b = false) →
        g.distance a b = Except.error GErr.nodeNotFound) ∧
      (g.contains a = true → g.contains b = true →
        ∃ v g2, g.distance a b = Except.ok (v, g2))) := by
  refine ⟨?_, ?_, ?_⟩
  · intro n
    constructor
    · intro h
      unfold Graph.neighbors
      rw [if_pos h]
    · intro h
      unfold Graph.neighbors
      rw [if_neg (by simp [h])]
      exact ⟨_, rfl⟩
  · intro s
    constructor
    · intro h
      unfold Graph.bfs
      rw [if_pos h]
    · intro h
      obtain ⟨pr, hok, _, _⟩ := bfs_master g s hinv h
      exact ⟨pr, g, hok⟩
  · intro a b
    constructor
    · exact distance_eval_err g a b
    · intro ha hb
      by_cases hab : a = b
      · subst hab
        exact ⟨0, g, distance_eval_same g a ha⟩
      · obtain ⟨v, hv, _⟩ := distance_char g a b hinv ha hb hab
        exact ⟨v, g, hv⟩

/-- Witness for C4 on the graph built from the single edge (1, 2). -/
theorem claim_C4_witness :
    (∀ n, ((construct [(1, 2)]).contains n = false →
        (construct [(1, 2)]).neighbors n = Except.error GErr.nodeNotFound) ∧
      ((construct [(1, 2)]).contains n = true →
        ∃ s, (construct [(1, 2)]).neighbors n = Except.ok s)) ∧
    (∀ s, ((construct [(1, 2)]).contains s = false →
        (construct [(1, 2)]).bfs s = Except.error GErr.nodeNotFound) ∧
      ((construct [(1, 2)]).contains s = true →
        ∃ pr g2, (construct [(1, 2)]).bfs s = Except.ok (pr, g2))) ∧
    (∀ a b, (((construct [(1, 2)]).contains a = false ∨
          (construct [(1, 2)]).contains b = false) →
        (construct [(1, 2)]).distance a b = Except.error GErr.nodeNotFound) ∧
      ((construct [(1, 2)]).contains a = true →
        (construct [(1, 2)]).contains b = true →
        ∃ v g2, (construct [(1, 2)]).distance a b = Except.ok (v, g2))) :=
  claim_C4_errors (construct [(1, 2)]) (construct_inv [(1, 2)])

/-- C5: for every initial edge list and every sequence of add_edge and
add_node calls, the resulting adjacency is symmetric: b is a neighbor of a
iff a is a neighbor of b. -/
theorem claim_C5_symmetry (E : List (Int × Int)) (ops : List Op) (a b : Int) :
    b ∈ neighborsOf (applyOps (construct E) ops).adjacency_dict a ↔
    a ∈ neighborsOf (applyOps (construct E) ops).adjacency_dict b := by
  have h := (applyOps_graphInv ops (construct E) (construct_inv E)).2.2
  exact ⟨fun h2 => h a b h2, fun h2 => h b a h2⟩

/-- C6: on a graph satisfying the invariants with both nodes present,
distance is 0 on equal nodes (without running BFS, so the graph is
untouched), and on distinct nodes equals the unique value paired with the
second node in the BFS result of the first: -1 when unreachable, otherwise
the shortest edge-count path length. -/
theorem claim_C6_distance_via_bfs (g : Graph) (a b : Int) (hinv : GraphInv g)
    (ha : g.contains a = true) (hb : g.contains b = true) :
    (a = b → g.distance a b = Except.ok (0, g)) ∧
    (a ≠ b → ∃ pr g2 v, g.bfs a = Except.ok (pr, g2) ∧ (b, v) ∈ pr ∧
      (∀ w, (b, w) ∈ pr → w = v) ∧
      g.distance a b = Except.ok (v, g) ∧
      (¬ Reachable g.adjacency_dict a b → v = -1) ∧
      (Reachable g.adjacency_dict a b → ∃ k : Nat, v = (k : Int) ∧
        IsPath g.adjacency_dict a b k ∧
        ∀ j, IsPath g.adjacency_dict a b j → k ≤ j)) := by
  constructor
  · intro he
    subst he
    exact distance_eval_same g a ha
  · intro hab
    obtain ⟨pr, hok, hnd, hch⟩ := bfs_master g a hinv ha
    obtain ⟨v, hdist, hbr⟩ := distance_char g a b hinv ha hb hab
    have hbv : (b, v) ∈ pr := by
      rcases hbr with ⟨k, hf, hv⟩ | ⟨hnr, hv⟩
      · exact (hch b v).2 ⟨Ne.symm hab, hb, Or.inl ⟨k, hf, hv⟩⟩
      · exact (hch b v).2 ⟨Ne.symm hab, hb, Or.inr ⟨hnr, hv⟩⟩
    refine ⟨pr, g, v, hok, hbv, ?_, hdist, ?_, ?_⟩
    · intro w hw
      exact pairs_unique pr hnd b w v hw hbv
    · intro hnr
      rcases hbr with ⟨k, hf, _⟩ | ⟨_, hv⟩
      · exact absurd ⟨k, (firstAt_shortest _ _ _ k hf).1⟩ hnr
      · exact hv
    · intro hr
      rcases hbr with ⟨k, hf, hv⟩ | ⟨hnr, _⟩
      · obtain ⟨hp, hm⟩ := firstAt_shortest _ _ _ k hf
        exact ⟨k, hv, hp, hm⟩
      · exact absurd hr hnr

/-- Witness for C6 on the graph built from edge (1, 2) with nodes 1 and 2. -/
theorem claim_C6_witness :
    ((1 : Int) = 2 → (construct [(1, 2)]).distance 1 2 =
      Except.ok (0, construct [(1, 2)])) ∧
    ((1 : Int) ≠ 2 → ∃ pr g2 v, (construct [(1, 2)]).bfs 1 = Except.ok (pr, g2) ∧
      (2, v) ∈ pr ∧
      (∀ w, (2, w) ∈ pr → w = v) ∧
      (construct [(1, 2)]).distance 1 2 = Except.ok (v, construct [(1, 2)]) ∧
      (¬ Reachable (construct [(1, 2)]).adjacency_dict 1 2 → v = -1) ∧
      (Reachable (construct [(1, 2)]).adjacency_dict 1 2 → ∃ k : Nat, v = (k : Int) ∧
        IsPath (construct [(1, 2)]).adjacency_dict 1 2 k ∧
        ∀ j, IsPath (construct [(1, 2)]).adjacency_dict 1 2 j → k ≤ j)) :=
  claim_C6_distance_via_bfs (construct [(1, 2)]) 1 2 (construct_inv [(1, 2)])
    (by decide) (by decide)

/-- C7: on a graph satisfying the invariants with both nodes present,
distance is symmetric in its arguments. -/
theorem claim_C7_distance_symm (g : Graph) (a b : Int) (hinv : GraphInv g)
    (ha : g.contains a = true) (hb : g.contains b = true) :
    g.distance a b = g.distance b a := by
  by_cases hab : a = b
  · subst hab
    rfl
  · obtain ⟨v1, h1, hbr1⟩ := distance_char g a b hinv ha hb hab
    obtain ⟨v2, h2, hbr2⟩ := distance_char g b a hinv hb ha (Ne.symm hab)
    have hsim := hinv.2.2
    have hveq : v1 = v2 := by
      rcases hbr1 with ⟨k1, hf1, hv1⟩ | ⟨hnr1, hv1⟩ <;>
        rcases hbr2 with ⟨k2, hf2, hv2⟩ | ⟨hnr2, hv2⟩
      · have hf2s := (firstAt_symm _ hsim b a k2).1 hf2
        have hk := firstAt_unique hf1 hf2s
        rw [hv1, hv2, hk]
      · exfalso
        apply hnr2
        exact (Reachable_symm _ hsim a b).1 ⟨k1, (firstAt_shortest _ _ _ k1 hf1).1⟩
      · exfalso
        apply hnr1
        exact (Reachable_symm _ hsim b a).1 ⟨k2, (firstAt_shortest _ _ _ k2 hf2).1⟩
      · rw [hv1, hv2]
    rw [h1, h2, hveq]

/-- Witness for C7 on the graph built from edge (1, 2) with nodes 1 and 2. -/
theorem claim_C7_witness :
    (construct [(1, 2)]).distance 1 2 = (construct [(1, 2)]).distance 2 1 :=
  claim_C7_distance_symm (construct [(1, 2)]) 1 2 (construct_inv [(1, 2)])
    (by decide) (by decide)

/-- C8: adding the same edge twice yields the same graph as adding it once,
both as literal state equality and under the adjacency-based equality
test; likewise for adding the same node twice. -/
theorem claim_C8_idempotent (g : Graph) (e : Int × Int) (n : Int)
    (h : (g.adjacency_dict.map Prod.fst).Nodup) :
    (g.add_edge e).add_edge e = g.add_edge e ∧
    ((g.add_edge e).add_edge e).beq (g.add_edge e) = true ∧
    (g.add_node n).add_node n = g.add_node n ∧
    ((g.add_node n).add_node n).beq (g.add_node n) = true := by
  have h1 := add_edge_idem g e
  have h2 := add_node_idem g n
  have hke : ((g.add_edge e).adjacency_dict.map Prod.fst).Nodup := by
    unfold Graph.add_edge
    by_cases hc : g.is_edge_in_graph e
    · rw [if_pos hc]
      exact h
    · rw [if_neg hc]
      exact keys_nodup_dictAddToSet _ _ _ (keys_nodup_dictAddToSet _ _ _ h)
  have hkn : ((g.add_node n).adjacency_dict.map Prod.fst).Nodup := by
    unfold Graph.add_node
    by_cases hc : g.contains n
    · rw [if_pos hc]
      exact h
    · rw [if_neg hc]
      show ((g.adjacency_dict ++ [(n, [])]).map Prod.fst).Nodup
      rw [List.map_append, List.nodup_append]
      refine ⟨h, by simp, ?_⟩
      intro x hx hx2
      simp at hx2
      subst hx2
      exact hc ((hasKey_iff g.adjacency_dict x).2 hx)
  refine ⟨h1, ?_, h2, ?_⟩
  · rw [h1]
    exact beq_refl_of_nodup _ hke
  · rw [h2]
    exact beq_refl_of_nodup _ hkn

/-- Witness for C8 on the graph built from edge (1, 2), re-adding edge
(1, 2) and node 3. -/
theorem claim_C8_witness :
    ((construct [(1, 2)]).add_edge (1, 2)).add_edge (1, 2) =
      (construct [(1, 2)]).add_edge (1, 2) ∧
    (((construct [(1, 2)]).add_edge (1, 2)).add_edge (1, 2)).beq
      ((construct [(1, 2)]).add_edge (1, 2)) = true ∧
    ((construct [(1, 2)]).add_node 3).add_node 3 = (construct [(1, 2)]).add_node 3 ∧
    (((construct [(1, 2)]).add_node 3).add_node 3).beq
      ((construct [(1, 2)]).add_node 3) = true :=
  claim_C8_idempotent (construct [(1, 2)]) (1, 2) 3 (by decide)

/-- C9: constructing from any edge list makes every endpoint of every
listed edge present, with each endpoint in the other's neighbor set. -/
theorem claim_C9_construct (E : List (Int × Int)) (u v : Int) (h : (u, v) ∈ E) :
    (construct E).contains u = true ∧ (construct E).contains v = true ∧
    (∃ su, (construct E).neighbors u = Except.ok su ∧ v ∈ su) ∧
    (∃ sv, (construct E).neighbors v = Except.ok sv ∧ u ∈ sv) := by
  obtain ⟨h1, h2⟩ := construct_mem E u v h
  have hsym : Symm (construct E).adjacency_dict := (construct_inv E).2.2
  have hcu : (construct E).contains u = true := mem_neighbors_hasKey _ hsym h2
  have hcv : (construct E).contains v = true := mem_neighbors_hasKey _ hsym h1
  refine ⟨hcu, hcv, ⟨neighborsOf (construct E).adjacency_dict u, ?_, h1⟩,
    ⟨neighborsOf (construct E).adjacency_dict v, ?_, h2⟩⟩
  · unfold Graph.neighbors
    rw [if_neg (by simp [hcu])]
  · unfold Graph.neighbors
    rw [if_neg (by simp [hcv])]

/-- Witness for C9 on the edge list holding the single edge (1, 2). -/
theorem claim_C9_witness :
    (construct [(1, 2)]).contains 1 = true ∧ (construct [(1, 2)]).contains 2 = true ∧
    (∃ su, (construct [(1, 2)]).neighbors 1 = Except.ok su ∧ 2 ∈ su) ∧
    (∃ sv, (construct [(1, 2)]).neighbors 2 = Except.ok sv ∧ 1 ∈ sv) :=
  claim_C9_construct [(1, 2)] 1 2 (by decide)

/-- C10: on a graph satisfying the invariants, whenever bfs or distance
returns a value it returns the graph state unchanged: the defaultdict
lookup inside bfs never inserts a missing key, and the other queries are
pure by construction. -/
theorem claim_C10_frame (g : Graph) (hinv : GraphInv g) :
    (∀ s pr g2, g.bfs s = Except.ok (pr, g2) → g2 = g) ∧
    (∀ a b v g2, g.distance a b = Except.ok (v, g2) → g2 = g) := by
  constructor
  · intro s pr g2 h
    cases hc : g.contains s with
    | false =>
      unfold Graph.bfs at h
      rw [if_pos hc] at h
      exact absurd h (by simp)
    | true =>
      obtain ⟨pr0, hok, _, _⟩ := bfs_master g s hinv hc
      rw [hok] at h
      have h2 := Except.ok.inj h
      exact (congrArg Prod.snd h2).symm
  · intro a b v g2 h
    cases hca : g.contains a with
    | false =>
      rw [distance_eval_err g a b (Or.inl hca)] at h
      exact absurd h (by simp)
    | true =>
      cases hcb : g.contains b with
      | false =>
        rw [distance_eval_err g a b (Or.inr hcb)] at h
        exact absurd h (by simp)
      | true =>
        by_cases hab : a = b
        · subst hab
          rw [distance_eval_same g a hca] at h
          have h2 := Except.ok.inj h
          exact (congrArg Prod.snd h2).symm
        · obtain ⟨v0, hd, _⟩ := distance_char g a b hinv hca hcb hab
          rw [hd] at h
          have h2 := Except.ok.inj h
          exact (congrArg Prod.snd h2).symm

/-- Witness for C10 on the graph built from the single edge (1, 2). -/
theorem claim_C10_witness :
    (∀ s pr g2, (construct [(1, 2)]).bfs s = Except.ok (pr, g2) →
      g2 = construct [(1, 2)]) ∧
    (∀ a b v g2, (construct [(1, 2)]).distance a b = Except.ok (v, g2) →
      g2 = construct [(1, 2)]) :=
  claim_C10_frame (construct [(1, 2)]) (construct_inv [(1, 2)])

end UG
